import Mathlib

/-!
Verification development for the dependency-tracked finalizer reconciler and
its encoding/validation collaborators (gardener repository sample).

The executable definitions below are shallow embeddings of the Go source under
src/ (pkg/utils/encoding.go, pkg/apis/core/validation/utils.go).  The
reconciler, finalizer guard, dependent index and secret replication are not
part of the sample sources (only their integration test is), so they are
modelled from the specification, as marked in their doc comments.
-/

set_option maxRecDepth 20000

namespace Gardener

/-! ## 32-bit machine words as natural numbers

Go's uint32 arithmetic is embedded as Nat arithmetic modulo 2^32; the bitwise
operators are computed bit by bit with a structural fuel of 32 so that every
operation reduces in the kernel. -/

/-- Two to the thirty-two. -/
def w32 : Nat := 4294967296

/-- Generic bitwise combination of the low `fuel` bits of two naturals. -/
def bitopAux (f : Nat → Nat → Nat) : Nat → Nat → Nat → Nat
  | 0, _, _ => 0
  | k + 1, a, b => f (a % 2) (b % 2) + 2 * bitopAux f k (a / 2) (b / 2)

/-- 32-bit exclusive or. -/
def xor32 (a b : Nat) : Nat := bitopAux (fun x y => if x = y then 0 else 1) 32 a b

/-- 32-bit bitwise and. -/
def and32 (a b : Nat) : Nat := bitopAux (fun x y => x * y) 32 a b

/-- 32-bit bitwise or. -/
def or32 (a b : Nat) : Nat := bitopAux (fun x y => if x + y = 0 then 0 else 1) 32 a b

/-- 32-bit bitwise complement. -/
def not32 (a : Nat) : Nat := bitopAux (fun x _ => 1 - x) 32 a 0

/-- 32-bit modular addition. -/
def add32 (a b : Nat) : Nat := (a + b) % w32

/-- Rotate a 32-bit word left by `n` bits. -/
def rotl32 (n a : Nat) : Nat := (a * 2 ^ n + a / 2 ^ (32 - n)) % w32

/-- Rotate a 32-bit word right by `n` bits. -/
def rotr32 (n a : Nat) : Nat := (a / 2 ^ n + a % 2 ^ n * 2 ^ (32 - n)) % w32

/-- Logical right shift of a 32-bit word. -/
def shr32 (n a : Nat) : Nat := a / 2 ^ n

/-! ## Byte-level helpers -/

/-- Big-endian bytes of a 32-bit word. -/
def be32Bytes (x : Nat) : List Nat :=
  [x / 16777216 % 256, x / 65536 % 256, x / 256 % 256, x % 256]

/-- Big-endian bytes of a 64-bit length field. -/
def be64Bytes (x : Nat) : List Nat :=
  [x / 72057594037927936 % 256, x / 281474976710656 % 256,
   x / 1099511627776 % 256, x / 4294967296 % 256,
   x / 16777216 % 256, x / 65536 % 256, x / 256 % 256, x % 256]

/-- Packs a byte list into big-endian 32-bit words, four bytes per word. -/
def toWordsBE : List Nat → List Nat
  | a :: b :: c :: d :: rest => (a * 16777216 + b * 65536 + c * 256 + d) :: toWordsBE rest
  | _ => []

/-- Splits a word list into 16-word blocks; fuel-based so it kernel-reduces. -/
def chunkWordsAux : Nat → List Nat → List (List Nat)
  | 0, _ => []
  | _, [] => []
  | fuel + 1, x :: xs => ((x :: xs).take 16) :: chunkWordsAux fuel ((x :: xs).drop 16)

/-- Splits a word list into 16-word blocks. -/
def chunkWords (l : List Nat) : List (List Nat) := chunkWordsAux l.length l

/-- UTF-8 encoding of one character, as Go produces when converting a string
to a byte slice. -/
def utf8Bytes (c : Char) : List Nat :=
  let n := c.toNat
  if n < 128 then [n]
  else if n < 2048 then [192 + n / 64, 128 + n % 64]
  else if n < 65536 then [224 + n / 4096, 128 + n / 64 % 64, 128 + n % 64]
  else [240 + n / 262144, 128 + n / 4096 % 64, 128 + n / 64 % 64, 128 + n % 64]

/-- The UTF-8 bytes of a string, mirroring Go's `[]byte(s)` conversion. -/
def strBytes (s : String) : List Nat := (s.data.map utf8Bytes).flatten

/-- Lowercase hexadecimal digit. -/
def hexDigit (n : Nat) : Char :=
  if n < 10 then Char.ofNat (48 + n) else Char.ofNat (87 + n)

/-- Lowercase hexadecimal rendering of a byte list, as Go's
`hex.EncodeToString`. -/
def bytesToHex (l : List Nat) : String :=
  ⟨l.foldr (fun b acc => hexDigit (b / 16) :: hexDigit (b % 16) :: acc) []⟩

/-! ## SHA-1 (crypto/sha1, called by pkg/utils/encoding.go) -/

/-- SHA-1 padding: append 0x80, zeros, and the 64-bit big-endian bit length. -/
def sha1Pad (msg : List Nat) : List Nat :=
  msg ++ 128 :: List.replicate ((119 - msg.length % 64) % 64) 0 ++ be64Bytes (msg.length * 8)

/-- One step of the SHA-1 message-schedule extension; the accumulator holds
the schedule so far, newest word first. -/
def sha1WStep (acc : List Nat) : Nat :=
  rotl32 1 (xor32 (xor32 (acc.getD 2 0) (acc.getD 7 0)) (xor32 (acc.getD 13 0) (acc.getD 15 0)))

/-- Extends the schedule accumulator by `k` words. -/
def sha1WAux : Nat → List Nat → List Nat
  | 0, acc => acc
  | k + 1, acc => sha1WAux k (sha1WStep acc :: acc)

/-- The 80-word SHA-1 message schedule of one 16-word block. -/
def sha1W (block : List Nat) : List Nat := (sha1WAux 64 block.reverse).reverse

/-- SHA-1 round function, depending on the round index. -/
def sha1F (i b c d : Nat) : Nat :=
  if i < 20 then or32 (and32 b c) (and32 (not32 b) d)
  else if i < 40 then xor32 (xor32 b c) d
  else if i < 60 then or32 (or32 (and32 b c) (and32 b d)) (and32 c d)
  else xor32 (xor32 b c) d

/-- SHA-1 round constants. -/
def sha1K (i : Nat) : Nat :=
  if i < 20 then 1518500249
  else if i < 40 then 1859775393
  else if i < 60 then 2400959708
  else 3395469782

/-- One SHA-1 compression round. -/
def sha1Round (i wi : Nat) : Nat × Nat × Nat × Nat × Nat → Nat × Nat × Nat × Nat × Nat
  | (a, b, c, d, e) =>
    (add32 (add32 (add32 (rotl32 5 a) (sha1F i b c d)) (add32 e (sha1K i))) wi,
     a, rotl32 30 b, c, d)

/-- Runs the SHA-1 rounds over the message schedule. -/
def sha1Rounds : Nat → List Nat → Nat × Nat × Nat × Nat × Nat → Nat × Nat × Nat × Nat × Nat
  | _, [], st => st
  | i, wi :: rest, st => sha1Rounds (i + 1) rest (sha1Round i wi st)

/-- SHA-1 compression of one block into the running state. -/
def sha1Compress (h : Nat × Nat × Nat × Nat × Nat) (block : List Nat) :
    Nat × Nat × Nat × Nat × Nat :=
  match h, sha1Rounds 0 (sha1W block) h with
  | (h0, h1, h2, h3, h4), (a, b, c, d, e) =>
    (add32 h0 a, add32 h1 b, add32 h2 c, add32 h3 d, add32 h4 e)

/-- SHA1 takes a byte slice and returns the sha1-hashed byte slice
(pkg/utils/encoding.go, backed by crypto/sha1). -/
def SHA1 (input : List Nat) : List Nat :=
  match (chunkWords (toWordsBE (sha1Pad input))).foldl sha1Compress
      (1732584193, 4023233417, 2562383102, 271733878, 3285377520) with
  | (h0, h1, h2, h3, h4) =>
    be32Bytes h0 ++ be32Bytes h1 ++ be32Bytes h2 ++ be32Bytes h3 ++ be32Bytes h4

/-! ## SHA-256 (crypto/sha256, called by pkg/utils/encoding.go) -/

/-- The 64 SHA-256 round constants. -/
def sha256K : List Nat :=
  [1116352408, 1899447441, 3049323471, 3921009573, 961987163, 1508970993, 2453635748, 2870763221,
   3624381080, 310598401, 607225278, 1426881987, 1925078388, 2162078206, 2614888103, 3248222580,
   3835390401, 4022224774, 264347078, 604807628, 770255983, 1249150122, 1555081692, 1996064986,
   2554220882, 2821834349, 2952996808, 3210313671, 3336571891, 3584528711, 113926993, 338241895,
   666307205, 773529912, 1294757372, 1396182291, 1695183700, 1986661051, 2177026350, 2456956037,
   2730485921, 2820302411, 3259730800, 3345764771, 3516065817, 3600352804, 4094571909, 275423344,
   430227734, 506948616, 659060556, 883997877, 958139571, 1322822218, 1537002063, 1747873779,
   1955562222, 2024104815, 2227730452, 2361852424, 2428436474, 2756734187, 3204031479, 3329325298]

/-- SHA-256 small sigma 0. -/
def sha256s0 (x : Nat) : Nat := xor32 (xor32 (rotr32 7 x) (rotr32 18 x)) (shr32 3 x)

/-- SHA-256 small sigma 1. -/
def sha256s1 (x : Nat) : Nat := xor32 (xor32 (rotr32 17 x) (rotr32 19 x)) (shr32 10 x)

/-- SHA-256 big sigma 0. -/
def sha256S0 (x : Nat) : Nat := xor32 (xor32 (rotr32 2 x) (rotr32 13 x)) (rotr32 22 x)

/-- SHA-256 big sigma 1. -/
def sha256S1 (x : Nat) : Nat := xor32 (xor32 (rotr32 6 x) (rotr32 11 x)) (rotr32 25 x)

/-- One step of the SHA-256 schedule extension; accumulator newest first. -/
def sha256WStep (acc : List Nat) : Nat :=
  add32 (add32 (acc.getD 15 0) (sha256s0 (acc.getD 14 0)))
        (add32 (acc.getD 6 0) (sha256s1 (acc.getD 1 0)))

/-- Extends the SHA-256 schedule accumulator by `k` words. -/
def sha256WAux : Nat → List Nat → List Nat
  | 0, acc => acc
  | k + 1, acc => sha256WAux k (sha256WStep acc :: acc)

/-- The 64-word SHA-256 message schedule of one block. -/
def sha256W (block : List Nat) : List Nat := (sha256WAux 48 block.reverse).reverse

/-- SHA-256 register file. -/
structure Sha256State where
  a : Nat
  b : Nat
  c : Nat
  d : Nat
  e : Nat
  f : Nat
  g : Nat
  h : Nat
deriving DecidableEq

/-- One SHA-256 compression round with constant `ki` and schedule word `wi`. -/
def sha256Round (st : Sha256State) (kw : Nat × Nat) : Sha256State :=
  let ch := xor32 (and32 st.e st.f) (and32 (not32 st.e) st.g)
  let t1 := add32 (add32 (add32 st.h (sha256S1 st.e)) (add32 ch kw.1)) kw.2
  let maj := xor32 (xor32 (and32 st.a st.b) (and32 st.a st.c)) (and32 st.b st.c)
  let t2 := add32 (sha256S0 st.a) maj
  ⟨add32 t1 t2, st.a, st.b, st.c, add32 st.d t1, st.e, st.f, st.g⟩

/-- SHA-256 compression of one block into the running state. -/
def sha256Compress (st : Sha256State) (block : List Nat) : Sha256State :=
  let r := (sha256K.zip (sha256W block)).foldl sha256Round st
  ⟨add32 st.a r.a, add32 st.b r.b, add32 st.c r.c, add32 st.d r.d,
   add32 st.e r.e, add32 st.f r.f, add32 st.g r.g, add32 st.h r.h⟩

/-- SHA256 takes a byte slice and returns the sha256-hashed byte slice
(pkg/utils/encoding.go, backed by crypto/sha256). -/
def SHA256 (input : List Nat) : List Nat :=
  let st := (chunkWords (toWordsBE (sha1Pad input))).foldl sha256Compress
    ⟨1779033703, 3144134277, 1013904242, 2773480762,
     1359893119, 2600822924, 528734635, 1541459225⟩
  be32Bytes st.a ++ be32Bytes st.b ++ be32Bytes st.c ++ be32Bytes st.d ++
  be32Bytes st.e ++ be32Bytes st.f ++ be32Bytes st.g ++ be32Bytes st.h

/-- ComputeSHA1Hex computes the hexadecimal representation of the SHA1 hash
(pkg/utils/encoding.go). -/
def ComputeSHA1Hex (input : List Nat) : String := bytesToHex (SHA1 input)

/-- ComputeSHA256Hex computes the hexadecimal representation of the SHA256 hash
(pkg/utils/encoding.go). -/
def ComputeSHA256Hex (input : List Nat) : String := bytesToHex (SHA256 input)

/-! ## Base64 (encoding/base64 StdEncoding, called by pkg/utils/encoding.go) -/

/-- The standard base64 alphabet. -/
def b64Chars : List Char :=
  "ABCDEFGHIJKLMNOPQRSTUVWXYZabcdefghijklmnopqrstuvwxyz0123456789+/".data

/-- The base64 character of a sextet. -/
def b64Char (n : Nat) : Char := b64Chars.getD n '='

/-- Standard base64 encoding of a byte list, three bytes to four characters,
padded with `=`. -/
def encB64 : List Nat → List Char
  | [] => []
  | [a] => [b64Char (a / 4), b64Char (a % 4 * 16), '=', '=']
  | [a, b] => [b64Char (a / 4), b64Char (a % 4 * 16 + b / 16), b64Char (b % 16 * 4), '=']
  | a :: b :: c :: rest =>
    b64Char (a / 4) :: b64Char (a % 4 * 16 + b / 16) ::
    b64Char (b % 16 * 4 + c / 64) :: b64Char (c % 64) :: encB64 rest

/-- The sextet value of a base64 character. -/
def b64Val (c : Char) : Option Nat :=
  go b64Chars 0
where
  go : List Char → Nat → Option Nat
    | [], _ => none
    | x :: xs, i => if x = c then some i else go xs (i + 1)

/-- Standard base64 decoding, the inverse of `encB64` on well-formed input. -/
def decB64 : List Char → Option (List Nat)
  | [] => some []
  | x1 :: x2 :: x3 :: x4 :: rest =>
    match b64Val x1, b64Val x2 with
    | some s1, some s2 =>
      if x3 = '=' then
        if x4 = '=' ∧ rest = [] then some [s1 * 4 + s2 / 16] else none
      else
        match b64Val x3 with
        | some s3 =>
          if x4 = '=' then
            if rest = [] then some [s1 * 4 + s2 / 16, s2 % 16 * 16 + s3 / 4] else none
          else
            match b64Val x4 with
            | some s4 =>
              (decB64 rest).map
                (fun tail => (s1 * 4 + s2 / 16) :: (s2 % 16 * 16 + s3 / 4) ::
                             (s3 % 4 * 64 + s4) :: tail)
            | none => none
        | none => none
    | _, _ => none
  | _ => none

/-- EncodeBase64 takes a byte slice and returns the Base64-encoded string
(pkg/utils/encoding.go). -/
def EncodeBase64 (input : List Nat) : String := ⟨encB64 input⟩

/-- EncodeSHA1 takes a byte slice and returns the sha1-hashed string,
base64-encoded (pkg/utils/encoding.go). -/
def EncodeSHA1 (input : List Nat) : String := EncodeBase64 (SHA1 input)

/-- CreateSHA1Secret takes a username and a password and returns a sha1-schemed
credentials pair as bytes (pkg/utils/encoding.go): it appends the literal
`:{SHA}` to the username and then the bytes of `EncodeSHA1 password`. -/
def CreateSHA1Secret (username password : List Nat) : List Nat :=
  (username ++ strBytes ":{SHA}") ++ strBytes (EncodeSHA1 password)

/-! ## Association lists

Go maps (and keyed object collections) are represented as association lists;
a well-formed map has duplicate-free keys. -/

/-- First value stored under a key. -/
def alookup {α : Type} : List (String × α) → String → Option α
  | [], _ => none
  | (k, v) :: rest, key => if k = key then some v else alookup rest key

/-- Replaces the first entry under a key, or appends a new one. -/
def aset {α : Type} : List (String × α) → String → α → List (String × α)
  | [], k, v => [(k, v)]
  | (k0, v0) :: rest, k, v =>
    if k0 = k then (k, v) :: rest else (k0, v0) :: aset rest k v

/-- Removes every entry under a key. -/
def aremove {α : Type} (l : List (String × α)) (k : String) : List (String × α) :=
  l.filter fun e => decide (e.1 ≠ k)

/-! ## HashForMap (pkg/utils/encoding.go) -/

/-- A dynamic Go value (`any`) as it can occur in a `map[string]any` handed to
HashForMap.  `vother` stands for a value of any type that the source's type
switch does not handle (for example a float64 or a []int). -/
inductive GoVal where
  | vstr (s : String)
  | vint (i : Int)
  | vbool (b : Bool)
  | vstrs (l : List String)
  | vmap (m : List (String × GoVal))
  | vmaps (l : List (List (String × GoVal)))
  | vother (typeName : String)

/-- Entry order by key; sorting entries by this order mirrors the source's
`slices.Sort(keys)` followed by lookups, for maps with duplicate-free keys. -/
def keyLE (a b : String × GoVal) : Prop := a.1 ≤ b.1

instance : DecidableRel keyLE := fun a b => inferInstanceAs (Decidable (a.1 ≤ b.1))

instance : IsTotal (String × GoVal) keyLE := ⟨fun a b => le_total a.1 b.1⟩

instance : IsTrans (String × GoVal) keyLE := ⟨fun _ _ _ h1 h2 => le_trans h1 h2⟩

/-- The entries of a map, sorted by key. -/
def sortEntries (m : List (String × GoVal)) : List (String × GoVal) :=
  List.insertionSort keyLE m

/-- Concatenation of a list of strings, modelling the source's `hash += ...`
accumulation. -/
def stringJoin (l : List String) : String := ⟨(l.map String.data).flatten⟩

/-- The contribution one value appends to the accumulator string in
HashForMap's type switch; unhandled types append nothing. -/
def goValHash : GoVal → String
  | .vstr s => ComputeSHA256Hex (strBytes s)
  | .vint i => ComputeSHA256Hex (strBytes (toString i))
  | .vbool b => ComputeSHA256Hex (strBytes (if b then "true" else "false"))
  | .vstrs l => stringJoin (l.map fun s => ComputeSHA256Hex (strBytes s))
  | .vmap m =>
    ComputeSHA256Hex (strBytes (stringJoin
      ((sortEntries m).attach.map fun e => goValHash e.1.2)))
  | .vmaps l =>
    stringJoin (l.attach.map fun mm =>
      ComputeSHA256Hex (strBytes (stringJoin
        ((sortEntries mm.1).attach.map fun e => goValHash e.1.2))))
  | .vother _ => ""
termination_by v => sizeOf v
decreasing_by
  · have hm : e.1 ∈ m := (List.perm_insertionSort keyLE m).mem_iff.mp e.2
    have h1 : sizeOf e.1 < sizeOf m := List.sizeOf_lt_of_mem hm
    obtain ⟨⟨a, b⟩, he⟩ := e
    simp only [Prod.mk.sizeOf_spec] at h1
    simp only [GoVal.vmap.sizeOf_spec]
    omega
  · have hm1 : mm.1 ∈ l := mm.2
    have h2 : sizeOf mm.1 < sizeOf l := List.sizeOf_lt_of_mem hm1
    have hm : e.1 ∈ mm.1 := (List.perm_insertionSort keyLE mm.1).mem_iff.mp e.2
    have h1 : sizeOf e.1 < sizeOf mm.1 := List.sizeOf_lt_of_mem hm
    obtain ⟨⟨a, b⟩, he⟩ := e
    simp only [Prod.mk.sizeOf_spec] at h1
    simp only [GoVal.vmaps.sizeOf_spec]
    omega

/-- HashForMap creates a hash value for a map of type map[string]any
(pkg/utils/encoding.go): the keys are collected and sorted, each value's
contribution is appended to an accumulator string in sorted key order, and the
result is the SHA-256 hex digest of the accumulator. -/
def HashForMap (m : List (String × GoVal)) : String :=
  ComputeSHA256Hex (strBytes (stringJoin ((sortEntries m).map fun e => goValHash e.2)))

/-- True exactly for the value shapes the source's type switch handles. -/
def isSupportedVal : GoVal → Bool
  | .vother _ => false
  | _ => true

/-! ## Secret replication (pkg/utils/gardener, modelled from the spec) -/

/-- A secret object as observed in the replication test: metadata, a type, an
immutability flag and a data map from keys to byte values. -/
structure Secret where
  name : String
  namespaceName : String
  labels : List (String × String)
  typ : String
  immutable : Bool
  data : List (String × List Nat)
deriving DecidableEq

/-- Modelled from the spec: `Replicate(sourceSecret, targetNamespace,
namePrefix)` of the secret-replication collaborator (the source of
ReplicateGlobalMonitoringSecret is not part of the sample).  It produces a
namespaced copy of the source secret, marks it with the replica purpose label,
and enriches the copied data with the derived credentials field under the
`auth` key, computed by CreateSHA1Secret from the source's username and
password entries. -/
def ReplicateGlobalMonitoringSecret (namePfx targetNamespace : String)
    (source : Secret) : Option Secret :=
  match alookup source.data "username", alookup source.data "password" with
  | some u, some pw =>
    some
      { name := namePfx ++ source.name
        namespaceName := targetNamespace
        labels := aset source.labels "gardener.cloud/purpose" "global-monitoring-secret-replica"
        typ := source.typ
        immutable := source.immutable
        data := ("auth", CreateSHA1Secret u pw) :: source.data }
  | _, _ => none

/-! ## PEM blocks (encoding/pem, called by pkg/utils/encoding.go)

A PEM file is modelled line-structured: one constructor per text line of the
encoding (the BEGIN header naming the block type, the base64 content lines of
at most 64 characters, and the END trailer naming the type again). -/

/-- Fuel-based split of a character list into 64-character lines. -/
def chunk64Aux : Nat → List Char → List (List Char)
  | 0, _ => []
  | _, [] => []
  | fuel + 1, x :: xs => ((x :: xs).take 64) :: chunk64Aux fuel ((x :: xs).drop 64)

/-- Splits a character list into 64-character lines, as pem.EncodeToMemory
wraps its base64 payload. -/
def chunk64 (l : List Char) : List (List Char) := chunk64Aux l.length l

/-- One line of a PEM file. -/
inductive PemLine where
  | beginLine (t : String)
  | contentLine (cs : List Char)
  | endLine (t : String)
deriving DecidableEq

/-- pem.EncodeToMemory: a BEGIN header carrying the block type, the payload
base64-encoded in 64-character lines, and the END trailer. -/
def pemEncodeToMemory (typ : String) (derBytes : List Nat) : List PemLine :=
  PemLine.beginLine typ ::
    (chunk64 (encB64 derBytes)).map PemLine.contentLine ++ [PemLine.endLine typ]

/-- Whether a line is a base64 content line. -/
def isContentLine : PemLine → Bool
  | .contentLine _ => true
  | _ => false

/-- The characters carried by a content line. -/
def pemLineChars : PemLine → List Char
  | .contentLine cs => cs
  | _ => []

/-- The final step of pem.Decode: after the content lines have been consumed,
the next line must be the END trailer whose type matches the BEGIN header, and
the accumulated base64 content is decoded. -/
def pemDecodeEnd (t : String) (content : List (List Char)) :
    List PemLine → Option (String × List Nat)
  | PemLine.endLine t2 :: _ =>
    if t2 = t then (decB64 content.flatten).map (fun bs => (t, bs)) else none
  | _ => none

/-- The body of pem.Decode after the BEGIN header carrying type `t` has been
read: consume base64 content lines up to the END trailer and decode the
accumulated payload. -/
def pemDecodeBody (t : String) (rest : List PemLine) : Option (String × List Nat) :=
  pemDecodeEnd t ((rest.takeWhile isContentLine).map pemLineChars)
    (rest.dropWhile isContentLine)

/-- pem.Decode: reads the first block — BEGIN header, base64 content up to the
matching END trailer — and returns the block type with the decoded payload. -/
def pemDecode (lines : List PemLine) : Option (String × List Nat) :=
  match lines with
  | PemLine.beginLine t :: rest => pemDecodeBody t rest
  | _ => none

/-- EncodePrivateKeyInPKCS8 takes a RSA private key object, encodes it to the
PKCS8 format, and returns it as a byte slice (pkg/utils/encoding.go).  The
external x509.MarshalPKCS8PrivateKey is an argument; the function wraps its
output in a PEM block whose type is the literal `RSA PRIVATE KEY`. -/
def EncodePrivateKeyInPKCS8 {K : Type} (marshalPKCS8 : K → Option (List Nat))
    (key : K) : Option (List PemLine) :=
  (marshalPKCS8 key).map (pemEncodeToMemory "RSA PRIVATE KEY")

/-- DecodeRSAPrivateKeyFromPKCS8 takes a byte slice, decodes it from the PKCS8
format, tries to convert it to an rsa.PrivateKey object, and returns it
(pkg/utils/encoding.go).  The external x509.ParsePKCS8PrivateKey combined with
the RSA type assertion is the argument `parsePKCS8`; the function fails unless
the PEM block type is exactly `RSA PRIVATE KEY`. -/
def DecodeRSAPrivateKeyFromPKCS8 {K : Type} (parsePKCS8 : List Nat → Option K)
    (data : List PemLine) : Option K :=
  match pemDecode data with
  | none => none
  | some (t, bs) => if t = "RSA PRIVATE KEY" then parsePKCS8 bs else none

/-! ## Validation (pkg/apis/core/validation/utils.go) -/

/-- One component of a field path: a named child or a list index. -/
inductive PathElem where
  | child (s : String)
  | idx (n : Nat)
deriving DecidableEq

/-- The kind of a field error produced by the validators. -/
inductive FieldErrorType where
  | required
  | invalid
  | notSupported
  | duplicate
deriving DecidableEq

/-- A field error: kind, path, offending value and a detail message. -/
structure FieldError where
  errKind : FieldErrorType
  errPath : List PathElem
  badValue : String
  detail : String
deriving DecidableEq

/-- The supported IP families, in the sorted order produced by `sets.List`. -/
def availableIPFamilies : List String := ["IPv4", "IPv6"]

/-- The indexed loop of ValidateIPFamilies: reports unsupported values and
duplicates, tracking the families seen so far. -/
def validateIPFamiliesLoop (fldPath : List PathElem) :
    Nat → List String → List String → List FieldError
  | _, _, [] => []
  | i, seen, f :: rest =>
    ((if availableIPFamilies.contains f then [] else
        [⟨.notSupported, fldPath ++ [.idx i], f, "supported values: IPv4, IPv6"⟩]) ++
      (if seen.contains f then [⟨.duplicate, fldPath ++ [.idx i], f, ""⟩] else [])) ++
    validateIPFamiliesLoop fldPath (i + 1) (if seen.contains f then seen else seen ++ [f]) rest

/-- ValidateIPFamilies validates the given list of IP families for valid
values and combinations (pkg/apis/core/validation/utils.go).  The source reads
the mutable global `features.DefaultFeatureGate`; that global state is made
explicit as the first argument, recording whether the IPv6SingleStack feature
gate is enabled at call time. -/
def ValidateIPFamilies (ipv6SingleStackEnabled : Bool) (ipFamilies : List String)
    (fldPath : List PathElem) : List FieldError :=
  let allErrs := validateIPFamiliesLoop fldPath 0 [] ipFamilies
  if allErrs.length > 0 then allErrs
  else if ipFamilies.length > 0 ∧ ipFamilies.head? = some "IPv6" ∧
      ipv6SingleStackEnabled = false then
    [⟨.invalid, fldPath, String.intercalate "," ipFamilies,
      "IPv6 single-stack networking is not supported"⟩]
  else []

/-! ## The dependency-tracked finalizer reconciler

Modelled from the spec: the reconciler, finalizer guard, dependent index and
object store of the ExposureClass controller are not part of the sample
sources — only the integration test
test/integration/controllermanager/exposureclass observes them — so the state
machine of spec sections 3, 4.1–4.3 and 7 is embedded here from the spec's
words. -/

/-- The fixed, well-known guard token this controller owns (the integration
test observes the literal finalizer `gardener`). -/
def finalizerToken : String := "gardener"

/-- Modelled from the spec: a Parent resource — an ordered duplicate-free set
of opaque finalizer tokens and a nullable deletion-timestamp, here a flag. -/
structure Parent where
  finalizers : List String
  deletionTimestamp : Bool
deriving DecidableEq

/-- Modelled from the spec: the object store state — Parents keyed by
identity, and Dependents keyed by identity, each carrying its optional Parent
reference. -/
structure Store where
  parents : List (String × Parent)
  dependents : List (String × Option String)
deriving DecidableEq

/-- Modelled from the spec: the Dependent Index answer over the live store —
whether at least one Dependent currently references the Parent. -/
def hasDependentsLive (s : Store) (pid : String) : Bool :=
  s.dependents.any fun d => decide (d.2 = some pid)

/-- Modelled from the spec: `HasDependents(parentID) → (bool, error)` of the
Dependent Index (spec 4.1).  The underlying store query either fails or
returns the list of Dependents; a query error propagates, and `false` is
reported only for an exhaustive empty match. -/
def HasDependents (queryResult : Except String (List (String × Option String)))
    (pid : String) : Except String Bool :=
  match queryResult with
  | .error e => .error e
  | .ok ds => .ok (ds.any fun d => decide (d.2 = some pid))

/-- Modelled from the spec: `EnsurePresent(parent)` of the Finalizer Guard
(spec 4.2) — idempotent attach of the guard token; the second component counts
store writes (one per state change, none when the token is already there). -/
def EnsurePresent (p : Parent) : Parent × Nat :=
  if finalizerToken ∈ p.finalizers then (p, 0)
  else ({ p with finalizers := p.finalizers ++ [finalizerToken] }, 1)

/-- Modelled from the spec: `EnsureAbsent(parent)` of the Finalizer Guard
(spec 4.2) — idempotent detach of the guard token; the second component counts
store writes. -/
def EnsureAbsent (p : Parent) : Parent × Nat :=
  if finalizerToken ∈ p.finalizers then
    ({ p with finalizers := p.finalizers.filter fun f => decide (f ≠ finalizerToken) }, 1)
  else (p, 0)

/-- Modelled from the spec: a store write of a Parent.  The store itself
performs hard removal once the finalizer set of a soft-deleted object becomes
empty (spec section 3, Parent invariant). -/
def storeUpdateParent (s : Store) (pid : String) (p : Parent) : Store :=
  if p.deletionTimestamp ∧ p.finalizers = [] then
    { s with parents := aremove s.parents pid }
  else
    { s with parents := aset s.parents pid p }

/-- Modelled from the spec: an external delete request for a Parent — a
soft-delete that only sets the deletion-timestamp while finalizers remain, and
a hard removal when the finalizer set is already empty (spec section 3). -/
def storeDeleteParent (s : Store) (pid : String) : Store :=
  match alookup s.parents pid with
  | none => s
  | some p =>
    if p.finalizers = [] then { s with parents := aremove s.parents pid }
    else { s with parents := aset s.parents pid { p with deletionTimestamp := true } }

/-- Modelled from the spec: one reconcile pass for one Parent identity
(spec 4.3).  Fetch the Parent (not found is a no-op); ensure the guard is
present on first sight, independent of deletion intent; when the
deletion-timestamp is set, query the Dependent Index and either stay blocked
(dependents found) or call EnsureAbsent, upon which the store hard-deletes the
Parent if no other finalizers remain. -/
def reconcile (s : Store) (pid : String) : Store :=
  match alookup s.parents pid with
  | none => s
  | some p0 =>
    let p := (EnsurePresent p0).1
    let s1 := storeUpdateParent s pid p
    if p.deletionTimestamp then
      if hasDependentsLive s1 pid then s1
      else storeUpdateParent s1 pid (EnsureAbsent p).1
    else s1

/-- Modelled from the spec: external creation of a Parent (the core never
creates Parents; external actors do). -/
def createParent (s : Store) (pid : String) : Store :=
  match alookup s.parents pid with
  | some _ => s
  | none => { s with parents := (pid, ⟨[], false⟩) :: s.parents }

/-- Modelled from the spec: external creation of a Dependent with an optional
Parent reference. -/
def createDependent (s : Store) (did : String) (ref : Option String) : Store :=
  match alookup s.dependents did with
  | some _ => s
  | none => { s with dependents := (did, ref) :: s.dependents }

/-- Modelled from the spec: external re-pointing of a Dependent's reference. -/
def updateDependentRef (s : Store) (did : String) (ref : Option String) : Store :=
  match alookup s.dependents did with
  | none => s
  | some _ => { s with dependents := aset s.dependents did ref }

/-- Modelled from the spec: external deletion of a Dependent. -/
def deleteDependent (s : Store) (did : String) : Store :=
  { s with dependents := aremove s.dependents did }

/-- Modelled from the spec: one step of the whole system — an external
create/update/delete of a Parent or Dependent, or one reconcile pass.  Every
reachable state arises by chaining such steps. -/
inductive Step : Store → Store → Prop where
  | parentCreated (s : Store) (pid : String) : Step s (createParent s pid)
  | parentDeleted (s : Store) (pid : String) : Step s (storeDeleteParent s pid)
  | dependentCreated (s : Store) (did : String) (ref : Option String) :
      Step s (createDependent s did ref)
  | dependentUpdated (s : Store) (did : String) (ref : Option String) :
      Step s (updateDependentRef s did ref)
  | dependentDeleted (s : Store) (did : String) : Step s (deleteDependent s did)
  | reconciled (s : Store) (pid : String) : Step s (reconcile s pid)

/-! ## Association-list lemmas -/

theorem alookup_aset_self {α : Type} (l : List (String × α)) (k : String) (v : α) :
    alookup (aset l k v) k = some v := by
  induction l with
  | nil => simp [aset, alookup]
  | cons e rest ih =>
    obtain ⟨k0, v0⟩ := e
    by_cases h : k0 = k
    · simp [aset, h, alookup]
    · simp [aset, h, alookup, ih]

theorem alookup_aset_ne {α : Type} (l : List (String × α)) (k k' : String) (v : α)
    (h : k ≠ k') : alookup (aset l k v) k' = alookup l k' := by
  induction l with
  | nil => simp [aset, alookup, h]
  | cons e rest ih =>
    obtain ⟨k0, v0⟩ := e
    by_cases h0 : k0 = k
    · subst h0; simp [aset, alookup, h]
    · simp [aset, h0, alookup, ih]

theorem alookup_aremove_self {α : Type} (l : List (String × α)) (k : String) :
    alookup (aremove l k) k = none := by
  induction l with
  | nil => rfl
  | cons e rest ih =>
    obtain ⟨k0, v0⟩ := e
    by_cases h0 : k0 = k
    · simp [aremove, List.filter_cons, h0] at ih ⊢; exact ih
    · simp [aremove, List.filter_cons, h0, alookup] at ih ⊢; exact ih

theorem alookup_aremove_ne {α : Type} (l : List (String × α)) (k k' : String)
    (h : k ≠ k') : alookup (aremove l k) k' = alookup l k' := by
  induction l with
  | nil => rfl
  | cons e rest ih =>
    obtain ⟨k0, v0⟩ := e
    by_cases h0 : k0 = k
    · subst h0; simp [aremove, List.filter_cons, alookup, h] at ih ⊢; exact ih
    · simp [aremove, List.filter_cons, h0, alookup] at ih ⊢
      by_cases h1 : k0 = k'
      · simp [h1]
      · simp [h1]; exact ih

/-! ## Facts about the store model -/

theorem storeUpdateParent_dependents (s : Store) (pid : String) (p : Parent) :
    (storeUpdateParent s pid p).dependents = s.dependents := by
  unfold storeUpdateParent; split <;> rfl

theorem hasDependentsLive_storeUpdateParent (s : Store) (pid : String) (p : Parent)
    (q : String) : hasDependentsLive (storeUpdateParent s pid p) q = hasDependentsLive s q := by
  unfold hasDependentsLive; rw [storeUpdateParent_dependents]

theorem storeUpdateParent_alookup_ne (s : Store) (pid : String) (p : Parent)
    (q : String) (h : pid ≠ q) :
    alookup (storeUpdateParent s pid p).parents q = alookup s.parents q := by
  unfold storeUpdateParent; split
  · exact alookup_aremove_ne _ _ _ h
  · exact alookup_aset_ne _ _ _ _ h

theorem reconcile_parents_other (s : Store) (pid q : String) (h : pid ≠ q) :
    alookup (reconcile s pid).parents q = alookup s.parents q := by
  unfold reconcile
  cases hc : alookup s.parents pid with
  | none => rfl
  | some p0 =>
    dsimp only
    split
    · split
      · exact storeUpdateParent_alookup_ne _ _ _ _ h
      · rw [storeUpdateParent_alookup_ne _ _ _ _ h, storeUpdateParent_alookup_ne _ _ _ _ h]
    · exact storeUpdateParent_alookup_ne _ _ _ _ h

/-- C1: Safety of guard removal.  For every system step (hence along every
sequence of steps from any reachable state), if a Parent that carried the
guard token is left by the step still existing, soft-deleted, and without the
guard token, then the Dependent Index query over the immediately preceding
state found no Dependent referencing that Parent: no removal races ahead of a
live dependent. -/
theorem guard_removal_requires_no_dependents :
    ∀ s s' : Store, Step s s' → ∀ (pid : String) (p p' : Parent),
      alookup s.parents pid = some p → finalizerToken ∈ p.finalizers →
      alookup s'.parents pid = some p' → p'.deletionTimestamp = true →
      finalizerToken ∉ p'.finalizers →
      hasDependentsLive s pid = false := by
  intro s s' hstep pid p p' hp htok hp' hdts htok'
  have hne : p.finalizers ≠ [] := by
    intro h0; rw [h0] at htok; exact absurd htok (List.not_mem_nil _)
  cases hstep with
  | parentCreated pid' =>
    cases hc : alookup s.parents pid' with
    | some q =>
      simp [createParent, hc] at hp'
      rw [hp] at hp'; injection hp' with h; subst h; exact absurd htok htok'
    | none =>
      simp [createParent, hc] at hp'
      by_cases he : pid' = pid
      · subst he; rw [hp] at hc; cases hc
      · simp [alookup, he] at hp'
        rw [hp] at hp'; injection hp' with h; subst h; exact absurd htok htok'
  | parentDeleted pid' =>
    cases hc : alookup s.parents pid' with
    | none =>
      simp [storeDeleteParent, hc] at hp'
      rw [hp] at hp'; injection hp' with h; subst h; exact absurd htok htok'
    | some q =>
      by_cases hq : q.finalizers = []
      · simp [storeDeleteParent, hc, hq] at hp'
        by_cases he : pid' = pid
        · subst he; rw [alookup_aremove_self] at hp'; cases hp'
        · rw [alookup_aremove_ne _ _ _ he] at hp'
          rw [hp] at hp'; injection hp' with h; subst h; exact absurd htok htok'
      · simp [storeDeleteParent, hc, hq] at hp'
        by_cases he : pid' = pid
        · subst he
          rw [alookup_aset_self] at hp'
          rw [hp] at hc; injection hc with h; subst h
          injection hp' with h
          rw [← h] at htok'
          exact absurd htok htok'
        · rw [alookup_aset_ne _ _ _ _ he] at hp'
          rw [hp] at hp'; injection hp' with h; subst h; exact absurd htok htok'
  | dependentCreated did ref =>
    cases hc : alookup s.dependents did with
    | some q =>
      simp [createDependent, hc] at hp'
      rw [hp] at hp'; injection hp' with h; subst h; exact absurd htok htok'
    | none =>
      simp [createDependent, hc] at hp'
      rw [hp] at hp'; injection hp' with h; subst h; exact absurd htok htok'
  | dependentUpdated did ref =>
    cases hc : alookup s.dependents did with
    | none =>
      simp [updateDependentRef, hc] at hp'
      rw [hp] at hp'; injection hp' with h; subst h; exact absurd htok htok'
    | some q =>
      simp [updateDependentRef, hc] at hp'
      rw [hp] at hp'; injection hp' with h; subst h; exact absurd htok htok'
  | dependentDeleted did =>
    simp [deleteDependent] at hp'
    rw [hp] at hp'; injection hp' with h; subst h; exact absurd htok htok'
  | reconciled pid' =>
    by_cases he : pid' = pid
    · subst he
      have hep : EnsurePresent p = (p, 0) := by simp [EnsurePresent, htok]
      simp [reconcile, hp, hep] at hp'
      cases hb : p.deletionTimestamp with
      | false =>
        simp [hb, storeUpdateParent, hne] at hp'
        rw [alookup_aset_self] at hp'
        injection hp' with h; rw [← h] at htok'; exact absurd htok htok'
      | true =>
        simp [hb] at hp'
        cases hd : hasDependentsLive (storeUpdateParent s pid' p) pid' with
        | true =>
          simp [storeUpdateParent, hne] at hd
          simp [hd, storeUpdateParent, hne] at hp'
          rw [alookup_aset_self] at hp'
          injection hp' with h; rw [← h] at htok'; exact absurd htok htok'
        | false =>
          rw [hasDependentsLive_storeUpdateParent] at hd
          exact hd
    · rw [reconcile_parents_other _ _ _ he] at hp'
      rw [hp] at hp'; injection hp' with h; subst h; exact absurd htok htok'

/-- C1 witness: a reconcile step on a guarded, soft-deleted Parent carrying a
second (foreign) finalizer removes only the guard token and leaves the Parent
behind, and the theorem recovers that the pre-state had no dependents. -/
theorem guard_removal_requires_no_dependents_witness :
    hasDependentsLive ⟨[("p", ⟨[finalizerToken, "other.io/guard"], true⟩)], []⟩ "p" = false :=
  guard_removal_requires_no_dependents
    ⟨[("p", ⟨[finalizerToken, "other.io/guard"], true⟩)], []⟩
    (reconcile ⟨[("p", ⟨[finalizerToken, "other.io/guard"], true⟩)], []⟩ "p")
    (Step.reconciled ⟨[("p", ⟨[finalizerToken, "other.io/guard"], true⟩)], []⟩ "p")
    "p" ⟨[finalizerToken, "other.io/guard"], true⟩ ⟨["other.io/guard"], true⟩
    (by decide) (by decide) (by decide) (by decide) (by decide)

/-- C3, Scenario A: a freshly created Parent with no finalizers and no
Dependents has exactly the well-known token as its finalizer list after one
reconcile pass; once it is deleted, the next reconcile pass removes it from
the store. -/
theorem scenarioA_guard_then_release :
    ∀ pid : String,
      alookup (reconcile ⟨[(pid, ⟨[], false⟩)], []⟩ pid).parents pid =
        some ⟨[finalizerToken], false⟩ ∧
      alookup (reconcile (storeDeleteParent (reconcile ⟨[(pid, ⟨[], false⟩)], []⟩ pid) pid)
          pid).parents pid = none := by
  intro pid
  simp [reconcile, alookup, EnsurePresent, EnsureAbsent, storeUpdateParent, storeDeleteParent,
    hasDependentsLive, aset, aremove, List.filter, finalizerToken]

/-- C2, Scenario B: a Parent with a Dependent referencing it is guarded by the
first reconcile pass; after the Parent is deleted, the reconcile pass leaves
it in the store with deletion-timestamp set and the finalizer intact
(Deleting-Blocked); after the Dependent is deleted, the next reconcile pass
removes the guard and the Parent disappears from the store. -/
theorem scenarioB_blocked_then_released :
    ∀ pid did : String,
      alookup (reconcile (storeDeleteParent
          (reconcile ⟨[(pid, ⟨[], false⟩)], [(did, some pid)]⟩ pid) pid) pid).parents pid =
        some ⟨[finalizerToken], true⟩ ∧
      alookup (reconcile (deleteDependent (reconcile (storeDeleteParent
          (reconcile ⟨[(pid, ⟨[], false⟩)], [(did, some pid)]⟩ pid) pid) pid) did)
          pid).parents pid = none := by
  intro pid did
  simp [reconcile, alookup, EnsurePresent, EnsureAbsent, storeUpdateParent, storeDeleteParent,
    deleteDependent, hasDependentsLive, aset, aremove, List.filter, finalizerToken]

/-- C4: finalizer lifecycle.  First conjunct: a Parent observed without the
guard token leaves the pass either guarded, or already past a legitimate
removal (deletion pending and no dependents).  Second conjunct: a pass
removes the guard from a guarded Parent (or removes the Parent) only when the
deletion-timestamp was set and no live Dependent referenced it.  Third
conjunct, Scenario C: a Parent deleted before its first reconcile (guard
absent, deletion-timestamp set, no dependents) is guarded and released within
one extended pass and leaves the store. -/
theorem finalizer_lifecycle :
    (∀ (s : Store) (pid : String) (p : Parent),
        alookup s.parents pid = some p → finalizerToken ∉ p.finalizers →
        (∃ p', alookup (reconcile s pid).parents pid = some p' ∧
            finalizerToken ∈ p'.finalizers) ∨
          (p.deletionTimestamp = true ∧ hasDependentsLive s pid = false)) ∧
    (∀ (s : Store) (pid : String) (p : Parent),
        alookup s.parents pid = some p → finalizerToken ∈ p.finalizers →
        (alookup (reconcile s pid).parents pid = none ∨
          (∃ p', alookup (reconcile s pid).parents pid = some p' ∧
            finalizerToken ∉ p'.finalizers)) →
        p.deletionTimestamp = true ∧ hasDependentsLive s pid = false) ∧
    (∀ (s : Store) (pid : String),
        alookup s.parents pid = some ⟨[], true⟩ → hasDependentsLive s pid = false →
        alookup (reconcile s pid).parents pid = none) := by
  refine ⟨?_, ?_, ?_⟩
  · intro s pid p hp htok
    have hq : (EnsurePresent p).1 = { p with finalizers := p.finalizers ++ [finalizerToken] } := by
      simp [EnsurePresent, htok]
    have hqtok : finalizerToken ∈ (EnsurePresent p).1.finalizers := by
      rw [hq]; simp
    have hqne : (EnsurePresent p).1.finalizers ≠ [] := by
      intro h0; rw [h0] at hqtok; exact absurd hqtok (List.not_mem_nil _)
    cases hb : p.deletionTimestamp with
    | false =>
      left
      refine ⟨(EnsurePresent p).1, ?_, hqtok⟩
      have hbq : (EnsurePresent p).1.deletionTimestamp = false := by rw [hq]; exact hb
      simp [reconcile, hp, hbq, storeUpdateParent, hqne]
      rw [alookup_aset_self]
    | true =>
      have hbq : (EnsurePresent p).1.deletionTimestamp = true := by rw [hq]; exact hb
      cases hd : hasDependentsLive s pid with
      | true =>
        left
        refine ⟨(EnsurePresent p).1, ?_, hqtok⟩
        simp only [hasDependentsLive] at hd
        simp [reconcile, hp, hbq, storeUpdateParent, hqne, hasDependentsLive, hd]
        rw [alookup_aset_self]
      | false => exact Or.inr ⟨rfl, rfl⟩
  · intro s pid p hp htok hrem
    have hep : EnsurePresent p = (p, 0) := by simp [EnsurePresent, htok]
    have hne : p.finalizers ≠ [] := by
      intro h0; rw [h0] at htok; exact absurd htok (List.not_mem_nil _)
    cases hb : p.deletionTimestamp with
    | false =>
      exfalso
      have hres : alookup (reconcile s pid).parents pid = some p := by
        simp [reconcile, hp, hep, hb, storeUpdateParent, hne]
        rw [alookup_aset_self]
      cases hrem with
      | inl h0 => rw [hres] at h0; cases h0
      | inr h0 =>
        obtain ⟨p', hp', htok'⟩ := h0
        rw [hres] at hp'; injection hp' with h; subst h; exact absurd htok htok'
    | true =>
      cases hd : hasDependentsLive s pid with
      | false => exact ⟨rfl, rfl⟩
      | true =>
        exfalso
        have hd' := hd
        simp only [hasDependentsLive] at hd'
        have hres : alookup (reconcile s pid).parents pid = some p := by
          simp [reconcile, hp, hep, hb, storeUpdateParent, hne, hasDependentsLive, hd']
          rw [alookup_aset_self]
        cases hrem with
        | inl h0 => rw [hres] at h0; cases h0
        | inr h0 =>
          obtain ⟨p', hp', htok'⟩ := h0
          rw [hres] at hp'; injection hp' with h; subst h; exact absurd htok htok'
  · intro s pid hp hd
    simp only [hasDependentsLive] at hd
    simp [reconcile, hp, EnsurePresent, EnsureAbsent, storeUpdateParent,
      hasDependentsLive, hd, List.filter, finalizerToken]
    rw [alookup_aremove_self]

/-- C4 witness: the lifecycle theorem applied to concrete one-parent stores —
a fresh unguarded Parent, a guarded soft-deleted Parent without dependents,
and a Parent deleted before its first reconcile. -/
theorem finalizer_lifecycle_witness :
    ((∃ p', alookup (reconcile ⟨[("p", ⟨[], false⟩)], []⟩ "p").parents "p" = some p' ∧
        finalizerToken ∈ p'.finalizers) ∨
      ((false : Bool) = true ∧ hasDependentsLive ⟨[("p", ⟨[], false⟩)], []⟩ "p" = false)) ∧
    ((true : Bool) = true ∧
      hasDependentsLive ⟨[("p", ⟨[finalizerToken], true⟩)], []⟩ "p" = false) ∧
    alookup (reconcile ⟨[("p", ⟨[], true⟩)], []⟩ "p").parents "p" = none :=
  ⟨finalizer_lifecycle.1 ⟨[("p", ⟨[], false⟩)], []⟩ "p" ⟨[], false⟩ (by decide) (by decide),
   finalizer_lifecycle.2.1 ⟨[("p", ⟨[finalizerToken], true⟩)], []⟩ "p" ⟨[finalizerToken], true⟩
     (by decide) (by decide) (Or.inl (by decide)),
   finalizer_lifecycle.2.2 ⟨[("p", ⟨[], true⟩)], []⟩ "p" (by decide) (by decide)⟩

/-- C5 counterexample: for a Parent already carrying the guard token, two
successive EnsurePresent invocations perform zero store writes in total, not
exactly one as claimed. -/
theorem ensure_twice_counterexample :
    ¬ ((EnsurePresent ⟨[finalizerToken], false⟩).2 +
        (EnsurePresent (EnsurePresent ⟨[finalizerToken], false⟩).1).2 = 1) := by
  decide

/-- C5 as amended: two successive EnsurePresent (EnsureAbsent) invocations
with no intervening change perform at most one store write in total — exactly
one when the token's presence initially differs from the desired state, zero
when it already matches; the second invocation never writes and does not
change the Parent; and when the token already has the desired presence the
operation returns immediately with no write. -/
theorem ensure_idempotent :
    ∀ p : Parent,
      ((EnsurePresent p).2 + (EnsurePresent (EnsurePresent p).1).2 =
        if finalizerToken ∈ p.finalizers then 0 else 1) ∧
      (EnsurePresent (EnsurePresent p).1).2 = 0 ∧
      (EnsurePresent (EnsurePresent p).1).1 = (EnsurePresent p).1 ∧
      (finalizerToken ∈ p.finalizers → EnsurePresent p = (p, 0)) ∧
      ((EnsureAbsent p).2 + (EnsureAbsent (EnsureAbsent p).1).2 =
        if finalizerToken ∈ p.finalizers then 1 else 0) ∧
      (EnsureAbsent (EnsureAbsent p).1).2 = 0 ∧
      (EnsureAbsent (EnsureAbsent p).1).1 = (EnsureAbsent p).1 ∧
      (finalizerToken ∉ p.finalizers → EnsureAbsent p = (p, 0)) := by
  intro p
  by_cases h : finalizerToken ∈ p.finalizers <;>
    simp [EnsurePresent, EnsureAbsent, h, List.mem_filter]

/-- C5 witness: at concrete Parents whose token presence already matches the
desired state, both guard operations return immediately with no write. -/
theorem ensure_idempotent_witness :
    EnsurePresent ⟨[finalizerToken], false⟩ = (⟨[finalizerToken], false⟩, 0) ∧
    EnsureAbsent ⟨[], false⟩ = (⟨[], false⟩, 0) :=
  ⟨(ensure_idempotent ⟨[finalizerToken], false⟩).2.2.2.1 (by decide),
   (ensure_idempotent ⟨[], false⟩).2.2.2.2.2.2.2 (by decide)⟩

/-- C6: Dependent Index error discipline.  HasDependents propagates every
query error unchanged, and reports `false` only when the query succeeded
exhaustively and no returned Dependent references the Parent. -/
theorem hasDependents_error_discipline :
    ∀ (q : Except String (List (String × Option String))) (pid : String),
      (∀ e, q = Except.error e → HasDependents q pid = Except.error e) ∧
      (HasDependents q pid = Except.ok false →
        ∃ ds, q = Except.ok ds ∧ ∀ d ∈ ds, d.2 ≠ some pid) := by
  intro q pid
  constructor
  · intro e he; subst he; rfl
  · intro hq
    cases q with
    | error e => simp [HasDependents] at hq
    | ok ds =>
      refine ⟨ds, rfl, ?_⟩
      intro d hd href
      simp [HasDependents] at hq
      exact hq d.1 d.2 hd href

/-- C6 witness: a failed query propagates its error, and a successful query
whose matches are empty justifies the `false` answer. -/
theorem hasDependents_error_discipline_witness :
    HasDependents (Except.error "store unavailable") "p" = Except.error "store unavailable" ∧
    ∃ ds, (Except.ok [("d", some "q")] :
        Except String (List (String × Option String))) = Except.ok ds ∧
      ∀ d ∈ ds, d.2 ≠ some "p" :=
  ⟨(hasDependents_error_discipline (Except.error "store unavailable") "p").1
      "store unavailable" rfl,
   (hasDependents_error_discipline (Except.ok [("d", some "q")]) "p").2 (by rfl)⟩

/-- C7 counterexample: ValidateIPFamilies does depend on mutable global state.
On the input `[IPv6]` its error list differs between the two states of the
IPv6SingleStack feature gate, so no function of the object and field path
alone describes it. -/
theorem validateIPFamilies_gate_counterexample :
    ValidateIPFamilies false ["IPv6"] [] ≠ ValidateIPFamilies true ["IPv6"] [] := by
  decide

/-- C7 as amended: each validation function is a pure function of the object,
the field path, and the feature-gate state; the only gate dependence is
ValidateIPFamilies consulting IPv6SingleStack, and only when the first IP
family is IPv6 — whenever the first family is not IPv6, the result is
identical under both gate states. -/
theorem validateIPFamilies_gate_independent :
    ∀ (g1 g2 : Bool) (ipFamilies : List String) (fldPath : List PathElem),
      ipFamilies.head? ≠ some "IPv6" →
      ValidateIPFamilies g1 ipFamilies fldPath = ValidateIPFamilies g2 ipFamilies fldPath := by
  intro g1 g2 fams p h
  unfold ValidateIPFamilies
  cases fams with
  | nil => rfl
  | cons f rest =>
    have hf : f ≠ "IPv6" := by
      intro h0; exact h (by rw [List.head?_cons, h0])
    dsimp only
    split
    · rfl
    · simp [hf]

/-- C7 witness: on a list whose first family is IPv4 the validator returns the
same error list whether the gate is off or on. -/
theorem validateIPFamilies_gate_independent_witness :
    ValidateIPFamilies false ["IPv4"] [] = ValidateIPFamilies true ["IPv4"] [] :=
  validateIPFamilies_gate_independent false true ["IPv4"] [] (by decide)

/-- The derived credentials value matches the byte-for-byte expectation of the
secret-replication integration test: username `bar`, password `baz`. -/
theorem createSHA1Secret_matches_integration_test :
    CreateSHA1Secret (strBytes "bar") (strBytes "baz") =
      strBytes "bar:{SHA}u+lgol6jEdIdQGaek98gA7qbkKI=" := by
  decide

/-- C8: CreateSHA1Secret is the concatenation of the username, the literal
`:{SHA}`, and the base64 encoding of the SHA-1 hash of the password; and the
replicated secret carries exactly this value under the `auth` data key while
every other data key of the source is copied unchanged, with type and
immutability preserved. -/
theorem createSHA1Secret_spec :
    ∀ u pw : List Nat,
      CreateSHA1Secret u pw = u ++ strBytes ":{SHA}" ++ strBytes (EncodeBase64 (SHA1 pw)) ∧
      ∀ (namePfx targetNamespace : String) (src : Secret) (un pass : List Nat),
        alookup src.data "username" = some un →
        alookup src.data "password" = some pass →
        ∃ out, ReplicateGlobalMonitoringSecret namePfx targetNamespace src = some out ∧
          alookup out.data "auth" = some (CreateSHA1Secret un pass) ∧
          (∀ k, k ≠ "auth" → alookup out.data k = alookup src.data k) ∧
          out.typ = src.typ ∧ out.immutable = src.immutable := by
  intro u pw
  constructor
  · rfl
  · intro namePfx targetNamespace src un pass hu hp
    refine ⟨⟨namePfx ++ src.name, targetNamespace,
        aset src.labels "gardener.cloud/purpose" "global-monitoring-secret-replica",
        src.typ, src.immutable, ("auth", CreateSHA1Secret un pass) :: src.data⟩,
      ?_, ?_, ?_, rfl, rfl⟩
    · simp [ReplicateGlobalMonitoringSecret, hu, hp]
    · simp [alookup]
    · intro k hk
      simp only [alookup]
      rw [if_neg]
      intro h0; exact hk h0.symm

/-- C8 witness: the replication applied to the integration test's global
monitoring secret (username `bar`, password `baz`). -/
theorem createSHA1Secret_spec_witness :
    CreateSHA1Secret (strBytes "bar") (strBytes "baz") =
      strBytes "bar" ++ strBytes ":{SHA}" ++ strBytes (EncodeBase64 (SHA1 (strBytes "baz"))) ∧
    ∃ out, ReplicateGlobalMonitoringSecret "prefix" "namespace"
        ⟨"global-monitoring-secret", "foo", [("bar", "baz")], "Opaque", false,
          [("username", strBytes "bar"), ("password", strBytes "baz")]⟩ = some out ∧
      alookup out.data "auth" = some (CreateSHA1Secret (strBytes "bar") (strBytes "baz")) ∧
      (∀ k, k ≠ "auth" →
        alookup out.data k =
          alookup [("username", strBytes "bar"), ("password", strBytes "baz")] k) ∧
      out.typ = "Opaque" ∧ out.immutable = false :=
  ⟨(createSHA1Secret_spec (strBytes "bar") (strBytes "baz")).1,
   (createSHA1Secret_spec (strBytes "bar") (strBytes "baz")).2 "prefix" "namespace"
     ⟨"global-monitoring-secret", "foo", [("bar", "baz")], "Opaque", false,
       [("username", strBytes "bar"), ("password", strBytes "baz")]⟩
     (strBytes "bar") (strBytes "baz") (by decide) (by decide)⟩

/-! ## HashForMap lemmas -/

theorem sorted_keyLT_sortEntries (m : List (String × GoVal))
    (hnd : (m.map Prod.fst).Nodup) :
    List.Pairwise (fun a b : String × GoVal => a.1 < b.1) (sortEntries m) := by
  have hs : List.Sorted keyLE (sortEntries m) := List.sorted_insertionSort keyLE m
  have hperm : (sortEntries m).Perm m := List.perm_insertionSort keyLE m
  have hnd' : ((sortEntries m).map Prod.fst).Nodup :=
    ((hperm.map Prod.fst).nodup_iff).mpr hnd
  have hne : (sortEntries m).Pairwise (fun a b => a.1 ≠ b.1) := by
    rw [List.Nodup, List.pairwise_map] at hnd'
    exact hnd'
  exact (List.Pairwise.and hs hne).imp fun hab => lt_of_le_of_ne hab.1 hab.2

theorem sortEntries_eq_of_perm {m₁ m₂ : List (String × GoVal)}
    (h : m₁.Perm m₂) (hnd : (m₁.map Prod.fst).Nodup) :
    sortEntries m₁ = sortEntries m₂ := by
  have hnd₂ : (m₂.map Prod.fst).Nodup := ((h.map Prod.fst).nodup_iff).mp hnd
  have hp : (sortEntries m₁).Perm (sortEntries m₂) :=
    ((List.perm_insertionSort keyLE m₁).trans h).trans
      (List.perm_insertionSort keyLE m₂).symm
  exact @List.eq_of_perm_of_sorted _ (fun a b : String × GoVal => a.1 < b.1)
    ⟨fun a b h1 h2 => absurd h2 (lt_asymm h1)⟩ _ _ hp
    (sorted_keyLT_sortEntries m₁ hnd) (sorted_keyLT_sortEntries m₂ hnd₂)

theorem sortEntries_filter (m : List (String × GoVal)) (p : (String × GoVal) → Bool)
    (hnd : (m.map Prod.fst).Nodup) :
    sortEntries (m.filter p) = (sortEntries m).filter p := by
  have hp : (sortEntries (m.filter p)).Perm ((sortEntries m).filter p) :=
    (List.perm_insertionSort keyLE (m.filter p)).trans
      (List.Perm.filter p (List.perm_insertionSort keyLE m).symm)
  refine @List.eq_of_perm_of_sorted _ (fun a b : String × GoVal => a.1 < b.1)
    ⟨fun a b h1 h2 => absurd h2 (lt_asymm h1)⟩ _ _ hp ?_ ?_
  · exact sorted_keyLT_sortEntries (m.filter p)
      (List.Nodup.sublist ((List.filter_sublist m).map Prod.fst) hnd)
  · exact List.Pairwise.filter p (sorted_keyLT_sortEntries m hnd)

theorem stringJoin_cons (s : String) (l : List String) :
    stringJoin (s :: l) = s ++ stringJoin l := by
  apply String.ext
  rw [String.data_append]
  simp [stringJoin]

theorem stringJoin_filter {α : Type} (f : α → String) (p : α → Bool)
    (h : ∀ x, p x = false → f x = "") :
    ∀ l : List α, stringJoin ((l.filter p).map f) = stringJoin (l.map f) := by
  intro l
  induction l with
  | nil => rfl
  | cons x xs ih =>
    cases hp : p x with
    | true => simp [List.filter_cons, hp, List.map_cons, stringJoin_cons, ih]
    | false => simp [List.filter_cons, hp, List.map_cons, stringJoin_cons, ih, h x hp]

theorem goValHash_unsupported_eq_empty (v : GoVal) (hv : isSupportedVal v = false) :
    goValHash v = "" := by
  cases v <;> simp_all [isSupportedVal, goValHash]

/-- C10: HashForMap is insensitive to map order and to unsupported entries.
First conjunct: for maps with duplicate-free keys, any permutation of the
entries (any insertion or iteration order of the Go map) hashes to the same
string, because keys are sorted before hashing.  Second conjunct: entries
whose values are of a type the switch does not handle contribute nothing, so
a map hashes identically to its restriction to supported entries. -/
theorem hashForMap_props :
    (∀ m₁ m₂ : List (String × GoVal), (m₁.map Prod.fst).Nodup → m₁.Perm m₂ →
      HashForMap m₁ = HashForMap m₂) ∧
    (∀ m : List (String × GoVal), (m.map Prod.fst).Nodup →
      HashForMap m = HashForMap (m.filter fun e => isSupportedVal e.2)) := by
  constructor
  · intro m₁ m₂ hnd hperm
    unfold HashForMap
    rw [sortEntries_eq_of_perm hperm hnd]
  · intro m hnd
    unfold HashForMap
    rw [sortEntries_filter m _ hnd]
    rw [stringJoin_filter (fun e => goValHash e.2) (fun e => isSupportedVal e.2)
      (fun x hx => goValHash_unsupported_eq_empty x.2 hx) (sortEntries m)]

/-- C10 witness: a two-entry map hashed in both orders, and the same map
against its supported-only restriction (dropping a float64-typed entry). -/
theorem hashForMap_props_witness :
    HashForMap [("a", GoVal.vstr "x"), ("b", GoVal.vother "float64")] =
      HashForMap [("b", GoVal.vother "float64"), ("a", GoVal.vstr "x")] ∧
    HashForMap [("a", GoVal.vstr "x"), ("b", GoVal.vother "float64")] =
      HashForMap ([("a", GoVal.vstr "x"), ("b", GoVal.vother "float64")].filter
        fun e => isSupportedVal e.2) :=
  ⟨hashForMap_props.1 [("a", GoVal.vstr "x"), ("b", GoVal.vother "float64")]
      [("b", GoVal.vother "float64"), ("a", GoVal.vstr "x")] (by decide)
      (List.Perm.swap ("a", GoVal.vstr "x") ("b", GoVal.vother "float64") []).symm,
   hashForMap_props.2 [("a", GoVal.vstr "x"), ("b", GoVal.vother "float64")] (by decide)⟩

/-! ## Base64 and PEM round-trip lemmas -/

theorem b64Val_b64Char : ∀ n, n < 64 → b64Val (b64Char n) = some n := by decide

theorem b64Char_ne_pad : ∀ n, n < 64 → b64Char n ≠ '=' := by decide

theorem decB64_encB64 : ∀ l : List Nat, (∀ b ∈ l, b < 256) →
    decB64 (encB64 l) = some l := by
  have H : ∀ n, ∀ l : List Nat, l.length ≤ n → (∀ b ∈ l, b < 256) →
      decB64 (encB64 l) = some l := by
    intro n
    induction n with
    | zero =>
      intro l hl _
      cases l with
      | nil => rfl
      | cons a t => simp at hl
    | succ n ih =>
      intro l hl hb
      cases l with
      | nil => rfl
      | cons a t =>
        have ha : a < 256 := hb a (by simp)
        cases t with
        | nil =>
          simp only [encB64, decB64]
          rw [b64Val_b64Char _ (by omega), b64Val_b64Char _ (by omega)]
          simp only [Option.some.injEq, List.cons.injEq]
          simp
          omega
        | cons b t2 =>
          have hbb : b < 256 := hb b (by simp)
          cases t2 with
          | nil =>
            simp only [encB64, decB64]
            rw [b64Val_b64Char _ (by omega), b64Val_b64Char _ (by omega)]
            dsimp only
            rw [if_neg (b64Char_ne_pad (b % 16 * 4) (by omega))]
            rw [b64Val_b64Char _ (by omega)]
            simp
            omega
          | cons c rest =>
            have hc : c < 256 := hb c (by simp)
            simp only [encB64, decB64]
            rw [b64Val_b64Char _ (by omega), b64Val_b64Char _ (by omega)]
            dsimp only
            rw [if_neg (b64Char_ne_pad (b % 16 * 4 + c / 64) (by omega))]
            rw [b64Val_b64Char _ (by omega)]
            dsimp only
            rw [if_neg (b64Char_ne_pad (c % 64) (by omega))]
            rw [b64Val_b64Char _ (by omega)]
            dsimp only
            rw [ih rest (by simp at hl ⊢; omega) (fun x hx => hb x (by simp [hx]))]
            simp only [Option.map_some', Option.some.injEq, List.cons.injEq]
            refine ⟨by omega, by omega, by omega, trivial⟩
  intro l
  exact H l.length l le_rfl

theorem chunk64Aux_flatten : ∀ (fuel : Nat) (l : List Char), l.length ≤ fuel →
    (chunk64Aux fuel l).flatten = l := by
  intro fuel
  induction fuel with
  | zero =>
    intro l h
    cases l with
    | nil => rfl
    | cons x xs => simp at h
  | succ n ih =>
    intro l h
    cases l with
    | nil => rfl
    | cons x xs =>
      simp only [chunk64Aux, List.flatten_cons]
      rw [ih ((x :: xs).drop 64) (by simp at h ⊢; omega)]
      exact List.take_append_drop 64 (x :: xs)

theorem chunk64_flatten (l : List Char) : (chunk64 l).flatten = l :=
  chunk64Aux_flatten l.length l le_rfl

theorem takeWhile_content (chunks : List (List Char)) (t : String) :
    (chunks.map PemLine.contentLine ++ [PemLine.endLine t]).takeWhile isContentLine =
      chunks.map PemLine.contentLine := by
  induction chunks with
  | nil => rfl
  | cons ch rest ih => simp [List.takeWhile_cons, isContentLine, ih]

theorem dropWhile_content (chunks : List (List Char)) (t : String) :
    (chunks.map PemLine.contentLine ++ [PemLine.endLine t]).dropWhile isContentLine =
      [PemLine.endLine t] := by
  induction chunks with
  | nil => rfl
  | cons ch rest ih => simp [List.dropWhile_cons, isContentLine, ih]

theorem map_pemLineChars_content (chunks : List (List Char)) :
    (chunks.map PemLine.contentLine).map pemLineChars = chunks := by
  induction chunks with
  | nil => rfl
  | cons ch rest ih => simp [pemLineChars, ih]

theorem pemDecode_cons (t : String) (rest : List PemLine) :
    pemDecode (PemLine.beginLine t :: rest) = pemDecodeBody t rest := rfl

theorem pemDecode_pemEncode (t : String) (derBytes : List Nat)
    (hb : ∀ b ∈ derBytes, b < 256) :
    pemDecode (pemEncodeToMemory t derBytes) = some (t, derBytes) := by
  show pemDecode (PemLine.beginLine t ::
    ((chunk64 (encB64 derBytes)).map PemLine.contentLine ++ [PemLine.endLine t])) =
    some (t, derBytes)
  rw [pemDecode_cons]
  unfold pemDecodeBody
  rw [dropWhile_content, takeWhile_content]
  simp only [pemDecodeEnd, if_true]
  rw [map_pemLineChars_content, chunk64_flatten, decB64_encB64 derBytes hb]
  rfl

theorem pemDecode_fst (t : String) (rest : List PemLine) (pr : String × List Nat)
    (h : pemDecode (PemLine.beginLine t :: rest) = some pr) : pr.1 = t := by
  rw [pemDecode_cons] at h
  unfold pemDecodeBody at h
  cases hdw : rest.dropWhile isContentLine with
  | nil => rw [hdw] at h; simp [pemDecodeEnd] at h
  | cons line tail =>
    cases line with
    | beginLine tb => rw [hdw] at h; simp [pemDecodeEnd] at h
    | contentLine cs => rw [hdw] at h; simp [pemDecodeEnd] at h
    | endLine t2 =>
      rw [hdw] at h
      simp only [pemDecodeEnd] at h
      by_cases ht : t2 = t
      · rw [if_pos ht] at h
        simp at h
        obtain ⟨bs, _, hpr⟩ := h
        rw [← hpr]
      · rw [if_neg ht] at h; cases h

/-- C9: PKCS8 round-trip.  For every key whose PKCS8 marshalling succeeds (the
external x509 marshal/parse pair satisfying its round-trip contract),
decoding the encoding returns the original key; the encoder labels the PEM
block `RSA PRIVATE KEY` — not the standard PKCS8 type `PRIVATE KEY` — and the
decoder accepts exactly that block type, rejecting a block labelled
`PRIVATE KEY`. -/
theorem pkcs8_roundtrip :
    ∀ (K : Type) (marshalPKCS8 : K → Option (List Nat)) (parsePKCS8 : List Nat → Option K)
      (key : K) (derBytes : List Nat),
      (∀ k bs, marshalPKCS8 k = some bs → parsePKCS8 bs = some k) →
      marshalPKCS8 key = some derBytes → (∀ b ∈ derBytes, b < 256) →
      (∃ encoded, EncodePrivateKeyInPKCS8 marshalPKCS8 key = some encoded ∧
        DecodeRSAPrivateKeyFromPKCS8 parsePKCS8 encoded = some key ∧
        encoded.head? = some (PemLine.beginLine "RSA PRIVATE KEY")) ∧
      (∀ otherBytes,
        DecodeRSAPrivateKeyFromPKCS8 parsePKCS8
          (pemEncodeToMemory "PRIVATE KEY" otherBytes) = none) := by
  intro K marshal parse key derBytes hroundtrip hm hb
  constructor
  · refine ⟨pemEncodeToMemory "RSA PRIVATE KEY" derBytes, ?_, ?_, rfl⟩
    · simp [EncodePrivateKeyInPKCS8, hm]
    · simp [DecodeRSAPrivateKeyFromPKCS8, pemDecode_pemEncode _ _ hb]
      exact hroundtrip key derBytes hm
  · intro otherBytes
    unfold DecodeRSAPrivateKeyFromPKCS8
    cases hd : pemDecode (pemEncodeToMemory "PRIVATE KEY" otherBytes) with
    | none => rfl
    | some pr =>
      unfold pemEncodeToMemory at hd
      have h1 : pr.1 = "PRIVATE KEY" := pemDecode_fst _ _ _ hd
      obtain ⟨t2, bs2⟩ := pr
      simp only at h1
      subst h1
      dsimp only
      rw [if_neg (by decide)]

/-- C9 witness: a concrete two-value key type with a marshal/parse pair
satisfying the round-trip contract; the encoding of `true` decodes back to
`true`, and a block labelled `PRIVATE KEY` is rejected. -/
theorem pkcs8_roundtrip_witness :
    DecodeRSAPrivateKeyFromPKCS8
        (fun l => if l = [1] then some true else if l = [0] then some false else none)
        (pemEncodeToMemory "RSA PRIVATE KEY" [1]) = some true ∧
    DecodeRSAPrivateKeyFromPKCS8
        (fun l => if l = [1] then some true else if l = [0] then some false else none)
        (pemEncodeToMemory "PRIVATE KEY" [1]) = none := by
  have h := pkcs8_roundtrip Bool (fun b => some (if b then [1] else [0]))
    (fun l => if l = [1] then some true else if l = [0] then some false else none)
    true [1]
    (by
      intro k bs hkb
      cases k with
      | true => cases hkb; rfl
      | false => cases hkb; rfl)
    rfl (by decide)
  obtain ⟨⟨enc, henc, hdec, _⟩, hneg⟩ := h
  constructor
  · have henc2 : some (pemEncodeToMemory "RSA PRIVATE KEY" [1]) = some enc := henc
    injection henc2 with henc3
    rw [← henc3] at hdec
    exact hdec
  · exact hneg [1]

end Gardener
